import Mathlib

/-!
Verification of the command-prompt core of the `ruztex` repository
(`src/_.interface.rs`): the command registry (registration, path lookup,
suggestions, execution) and the interactive-prompt key handler.

Strings are modelled at character granularity as `List Char` (`Str`): the
source only manipulates its strings through `trim`, `split_whitespace`,
`split_once`, `contains`, `starts_with`, `rfind(' ')`, slicing at a space
boundary and concatenation, all of which act on the character sequence.
The `HashMap<String, String>` of bound arguments is modelled as the lookup
function `Str → Option Str` it represents; the source never iterates it.
Rust panics (out-of-bounds indexing) are modelled with `Except String`:
`.error` marks a panic.
-/

set_option autoImplicit false

abbrev Str := List Char

deriving instance DecidableEq for Except

/-- Rust `str::trim`: drop whitespace from both ends. -/
def trimStr (s : Str) : Str :=
  ((s.dropWhile Char.isWhitespace).reverse.dropWhile Char.isWhitespace).reverse

/-- Worker for `splitWhitespace`; `acc` holds the reversed current token. -/
def splitWhitespaceAux : List Char → Str → List Str
  | acc, [] => if acc = [] then [] else [acc.reverse]
  | acc, c :: rest =>
    if c.isWhitespace then
      (if acc = [] then [] else [acc.reverse]) ++ splitWhitespaceAux [] rest
    else
      splitWhitespaceAux (c :: acc) rest

/-- Rust `str::split_whitespace`: maximal runs of non-whitespace characters. -/
def splitWhitespace (s : Str) : List Str :=
  splitWhitespaceAux [] s

/-- Rust `[..].join(" ")` on string slices. -/
def joinSpace : List Str → Str
  | [] => []
  | [t] => t
  | t :: ts => t ++ ' ' :: joinSpace ts

/-- Rust `s.starts_with(p)`. -/
def startsWith : Str → Str → Bool
  | _, [] => true
  | [], _ :: _ => false
  | c :: s, d :: p => c == d && startsWith s p

/-- Rust `s.split_once(sep)`: split at the first occurrence of `sep`. -/
def splitOnce (sep : Char) : Str → Option (Str × Str)
  | [] => none
  | c :: rest =>
    if c = sep then some ([], rest)
    else (splitOnce sep rest).map (fun kv => (c :: kv.1, kv.2))

/-- Rust `s.rfind(' ')` (index of the last space), at character granularity. -/
def rfindSpaceOpt : Str → Option Nat
  | [] => none
  | c :: rest =>
    match rfindSpaceOpt rest with
    | some j => some (j + 1)
    | none => if c = ' ' then some 0 else none

/-- `input.rfind(' ').unwrap_or(0)` as used by the tab handler. -/
def rfindSpace (s : Str) : Nat :=
  (rfindSpaceOpt s).getD 0

/-- Rust `format!` of an `i32`, used only in hint text. -/
def intToStr (n : Int) : Str :=
  (toString n).toList

-- Sanity checks on the string model (concrete evaluation).
example : splitWhitespace (" give  sword ".toList) = ["give".toList, "sword".toList] := by decide
example : trimStr ("  exit ".toList) = "exit".toList := by decide
example : splitOnce ':' ("item:sword".toList) = some ("item".toList, "sword".toList) := by decide
example : rfindSpace ("give sw".toList) = 4 := by decide
example : startsWith ("10".toList) ("1".toList) = true := by decide
example : joinSpace ["give".toList, "sw".toList] = "give sw".toList := by decide

/-! ## Command model (`struct CommandArg`, `struct Command`, `struct CommandRegistry`) -/

/-- `struct CommandArg` from the source: name, type tag, optional numeric
range for int arguments, optional flag and optional default literal. -/
structure CommandArg where
  name : Str
  arg_type : Str
  range : Option (Int × Int)
  optional : Bool
  default : Option Str
deriving DecidableEq, Repr

/-- The name-to-value mapping handed to a command handler
(`HashMap<String, String>` in the source), modelled by its lookup function. -/
abbrev ArgsMap := Str → Option Str

/-- `struct Command`: name, argument specs, nested subcommands, optional
handler. `Command` is a nested inductive because `subcommands` holds further
commands. -/
inductive Command : Type where
  | mk (name : Str) (args : List CommandArg) (subcommands : List Command)
       (handler : Option (ArgsMap → Str)) : Command

def Command.name : Command → Str
  | .mk n _ _ _ => n

def Command.args : Command → List CommandArg
  | .mk _ a _ _ => a

def Command.subcommands : Command → List Command
  | .mk _ _ s _ => s

def Command.handler : Command → Option (ArgsMap → Str)
  | .mk _ _ _ h => h

/-- `struct CommandRegistry`. -/
structure CommandRegistry where
  commands : List Command

/-- The argument reordering performed by `register_command`: one pass pushes
each argument onto a `required` or an `optional` vector and the two are
concatenated, i.e. the required arguments (in order) followed by the
optional ones (in order). -/
def storeReorder : Command → Command
  | .mk n args subs h =>
    .mk n (args.filter (fun a => !a.optional) ++ args.filter (fun a => a.optional)) subs h

mutual

/-- `CommandRegistry::register_command`: push the command with its arguments
reordered required-first, then recurse into every declared subcommand. -/
def registerCommand : CommandRegistry → Command → CommandRegistry
  | r, .mk n args subs h =>
    registerCommandList ⟨r.commands ++ [storeReorder (.mk n args subs h)]⟩ subs

/-- The `for subcommand in command.subcommands` loop of `register_command`. -/
def registerCommandList : CommandRegistry → List Command → CommandRegistry
  | r, [] => r
  | r, c :: rest => registerCommandList (registerCommand r c) rest

end

/-- The descent loop of `find_command`: follow `subcommands` by exact name
match, failing as soon as a token does not match. -/
def findSub : List Str → Command → Option Command
  | [], c => some c
  | p :: rest, c =>
    match c.subcommands.find? (fun s => s.name == p) with
    | none => none
    | some s => findSub rest s

/-- `find_command` after the split, on a non-empty token list: exact match
among top-level commands for the head token, then descend. -/
def findFromTokens (r : CommandRegistry) (p0 : Str) (rest : List Str) : Option Command :=
  match r.commands.find? (fun c => c.name == p0) with
  | none => none
  | some c => findSub rest c

/-- `CommandRegistry::find_command`. `parts[0]` on an empty token vector is
an out-of-bounds panic in the source, modelled as `.error`. -/
def findCommandE (r : CommandRegistry) (name : Str) : Except String (Option Command) :=
  match splitWhitespace name with
  | [] => .error "panic: index out of bounds (parts[0] on an empty token list)"
  | p0 :: rest => .ok (findFromTokens r p0 rest)

/-! ## `get_suggestions` -/

/-- The hint text built by `get_suggestions` for the argument at the current
index: a left angle bracket, name, a colon, the type, an optional range
segment for ranged arguments, a right angle bracket, and a question-mark
default marker for optional arguments. -/
def buildHint (arg : CommandArg) : Str :=
  let base := '<' :: arg.name ++ ':' :: arg.arg_type
  let base :=
    match arg.range with
    | some mm => base ++ ' ' :: '\x7b' :: intToStr mm.1 ++ '.' :: '.' :: intToStr mm.2 ++ ['\x7d']
    | none => base
  let base := base ++ ['>']
  if arg.optional then base ++ '?' :: (arg.default.getD ("none".toList)) else base

/-- `CommandRegistry::get_suggestions`. The argument index
(`parts.iter().skip(parts.len().min(1)).filter(|p| !p.contains(':')).count()`)
is computed identically in both branches of the source and is hoisted here.
The `find_command` call can only panic if the joined command path splits to
no tokens; the panic is propagated as `.error`. -/
def getSuggestionsE (r : CommandRegistry) (input : Str) : Except String (List Str × Str) :=
  match splitWhitespace (trimStr input) with
  | [] => .ok (r.commands.map Command.name, [])
  | p0 :: rest =>
    let parts := p0 :: rest
    if parts.length = 1 then
      .ok ((r.commands.filter (fun c => startsWith c.name p0)).map Command.name, [])
    else
      let command_path := joinSpace (parts.take (parts.length - 1))
      match findCommandE r command_path with
      | .error e => .error e
      | .ok none => .ok ([], [])
      | .ok (some command) =>
        let last_part := parts.getLastD []
        let arg_index :=
          ((parts.drop (min parts.length 1)).filter (fun p => !(p.contains ':'))).length
        if last_part.contains ':' then
          if h : arg_index < command.args.length then
            let arg := command.args[arg_index]
            let sugs :=
              if arg.arg_type = "int".toList then
                (["0", "1", "10", "100"].map String.toList).filter
                  (fun v => startsWith v last_part)
              else
                match arg.default with
                | some d => [d].filter (fun v => startsWith v last_part)
                | none => []
            .ok (sugs, buildHint arg)
          else
            .ok ([], [])
        else
          let subSugs :=
            (command.subcommands.filter (fun c => startsWith c.name last_part)).map
              (fun c => trimStr (command_path ++ ' ' :: c.name))
          if h : arg_index < command.args.length then
            let arg := command.args[arg_index]
            .ok (subSugs ++ [trimStr (command_path ++ ' ' :: arg.name ++ [':'])], buildHint arg)
          else
            .ok (subSugs, [])

/-! ## `execute_command` -/

/-- The body of the resolution loop of `execute_command`, iterating over the
remaining values of `i`; the accumulator holds the last successful command
and its prefix length. A failed lookup stops the loop (`break`). -/
def resolveLoopGo (r : CommandRegistry) (parts : List Str) :
    List Nat → Option Command × Nat → Except String (Option Command × Nat)
  | [], acc => .ok acc
  | i :: is, acc =>
    match findCommandE r (joinSpace (parts.take i)) with
    | .error e => .error e
    | .ok (some cmd) => resolveLoopGo r parts is (some cmd, i)
    | .ok none => .ok acc

/-- The resolution loop of `execute_command`
(`for i in 1..=parts.len() { if let Some(cmd) = find_command(&parts[..i].join(" ")) ... else break }`):
remember the last successful prefix, stop at the first failure.
`List.range' 1 parts.length` is the index sequence `1, ..., parts.len()`. -/
def resolveLoop (r : CommandRegistry) (parts : List Str) :
    Except String (Option Command × Nat) :=
  resolveLoopGo r parts (List.range' 1 parts.length) (none, 0)

def emptyArgs : ArgsMap := fun _ => none

/-- `HashMap::insert`: the new binding shadows any previous one. -/
def insertArg (m : ArgsMap) (k v : Str) : ArgsMap :=
  fun x => if x = k then some v else m x

/-- The named arguments of the tail (tokens after the resolved command):
each `key:value` token, split on the first colon, inserted in order. -/
def namedArgsOf (tail : List Str) : ArgsMap :=
  tail.foldl
    (fun m p =>
      match splitOnce ':' p with
      | some kv => insertArg m kv.1 kv.2
      | none => m)
    emptyArgs

/-- The positional arguments of the tail: the tokens without a colon,
in order. -/
def positionalOf (tail : List Str) : List Str :=
  tail.filter (fun p => (splitOnce ':' p).isNone)

/-- The binding loop of `execute_command` over `command.args.iter().enumerate()`:
the i-th argument takes the i-th positional token, else its named value, else
its default; a required argument with none of these makes the whole call
return the missing-argument message. -/
def assignArgsGo (pos : List Str) (named : ArgsMap) :
    List CommandArg → Nat → ArgsMap → Except Str ArgsMap
  | [], _, acc => .ok acc
  | a :: rest, i, acc =>
    if h : i < pos.length then
      assignArgsGo pos named rest (i + 1) (insertArg acc a.name (pos.get ⟨i, h⟩))
    else
      match named a.name with
      | some v => assignArgsGo pos named rest (i + 1) (insertArg acc a.name v)
      | none =>
        match a.default with
        | some d => assignArgsGo pos named rest (i + 1) (insertArg acc a.name d)
        | none =>
          if a.optional then assignArgsGo pos named rest (i + 1) acc
          else .error ("Missing required argument: ".toList ++ a.name)

def assignArgs (pos : List Str) (named : ArgsMap) (args : List CommandArg) :
    Except Str ArgsMap :=
  assignArgsGo pos named args 0 emptyArgs

/-- `CommandRegistry::execute_command`. -/
def executeCommandE (r : CommandRegistry) (input : Str) : Except String (Option Str) :=
  let parts := splitWhitespace (trimStr input)
  if parts.isEmpty then .ok none
  else
    match resolveLoop r parts with
    | .error e => .error e
    | .ok (none, _) => .ok none
    | .ok (some command, command_len) =>
      let tail := parts.drop command_len
      match assignArgs (positionalOf tail) (namedArgsOf tail) command.args with
      | .error msg => .ok (some msg)
      | .ok args => .ok (command.handler.map (fun f => f args))

/-! ## Interactive prompt (`InteractivePrompt` + `handle_key`)

Key events are modelled without modifier keys: the source only distinguishes
plain character input (`KeyModifiers::NONE`); rendering and the printing of
execution results are terminal I/O and are not part of the state. -/

inductive Key : Type where
  | enter | backspace | left | right | up | down | tab
  | char (c : Char)

/-- The prompt session state (`InteractivePrompt` merged with its
`PromptConfig`; the registry is read-only for the whole session). -/
structure PromptState where
  registry : CommandRegistry
  max_history : Nat
  max_suggestions : Nat
  input : Str
  cursor_pos : Nat
  history : List Str
  history_index : Option Nat
  suggestions : List Str
  selected_suggestion : Option Nat
  hint : Str
  running : Bool

/-- Total wrapper around `getSuggestionsE`: the `.error` fallback is
unreachable (`getSuggestionsE` never panics, see `getSuggestionsE_isOk`). -/
def getSuggestionsTot (r : CommandRegistry) (input : Str) : List Str × Str :=
  match getSuggestionsE r input with
  | .ok v => v
  | .error _ => ([], [])

/-- `InteractivePrompt::update_suggestions`. -/
def updateSuggestions (s : PromptState) : PromptState :=
  let p := getSuggestionsTot s.registry s.input
  { s with
    suggestions := p.1
    hint := p.2
    selected_suggestion := if p.1.isEmpty then none else some 0 }

/-- `PromptConfig::new` plus `InteractivePrompt::new`: empty buffer, default
history cap 50, default 5 visible suggestions. -/
def promptInit (r : CommandRegistry) : PromptState :=
  { registry := r, max_history := 50, max_suggestions := 5, input := [],
    cursor_pos := 0, history := [], history_index := none, suggestions := [],
    selected_suggestion := none, hint := [], running := true }

/-- `InteractivePrompt::handle_key`. On enter the execution result is
printed (I/O, not part of the state); the state updates are modelled. -/
def handleKey (s : PromptState) (k : Key) : PromptState :=
  match k with
  | .enter =>
    if trimStr s.input = "exit".toList then { s with running := false }
    else if s.input.isEmpty then s
    else
      let pushed := s.history ++ [s.input]
      let trimmed := if pushed.length > s.max_history then pushed.drop 1 else pushed
      updateSuggestions
        { s with history := trimmed, input := [], cursor_pos := 0, history_index := none }
  | .char c =>
    updateSuggestions
      { s with input := s.input.take s.cursor_pos ++ c :: s.input.drop s.cursor_pos,
               cursor_pos := s.cursor_pos + 1 }
  | .backspace =>
    if 0 < s.cursor_pos then
      updateSuggestions
        { s with input := s.input.take (s.cursor_pos - 1) ++ s.input.drop s.cursor_pos,
                 cursor_pos := s.cursor_pos - 1 }
    else s
  | .left => if 0 < s.cursor_pos then { s with cursor_pos := s.cursor_pos - 1 } else s
  | .right => if s.cursor_pos < s.input.length then { s with cursor_pos := s.cursor_pos + 1 } else s
  | .up =>
    if !s.suggestions.isEmpty then
      let sel := some ((s.selected_suggestion.map (fun i => if i = 0 then 0 else i - 1)).getD 0)
      { s with selected_suggestion := sel }
    else if !s.history.isEmpty then
      let maxIdx := s.history.length - 1
      let idx := (s.history_index.map (fun i => if i = 0 then 0 else i - 1)).getD maxIdx
      let inp := s.history.getD idx []
      updateSuggestions
        { s with history_index := some idx, input := inp, cursor_pos := inp.length }
    else s
  | .down =>
    if !s.suggestions.isEmpty then
      let sel := some ((s.selected_suggestion.map
        (fun i => if i + 1 < min s.suggestions.length s.max_suggestions then i + 1 else i)).getD 0)
      { s with selected_suggestion := sel }
    else if !s.history.isEmpty then
      let idx := (s.history_index.map
        (fun i => if i + 1 < s.history.length then i + 1 else i)).getD 0
      let inp := s.history.getD idx []
      updateSuggestions
        { s with history_index := some idx, input := inp, cursor_pos := inp.length }
    else s
  | .tab =>
    match s.selected_suggestion with
    | none => s
    | some idx =>
      if h : idx < s.suggestions.length then
        let suggestion := s.suggestions[idx]
        let parts := splitWhitespace (trimStr s.input)
        let newInput :=
          if parts.isEmpty then suggestion
          else if 1 < parts.length then
            if (parts.getLastD []).contains ':' then suggestion
            else s.input.take (rfindSpace s.input) ++ suggestion
          else suggestion
        updateSuggestions { s with input := newInput, cursor_pos := newInput.length }
      else s

/-! ## Concrete commands and registries used by the spec examples -/

/-- A handler that makes the bound values observable: it returns
`item`-value, a bar, `count`-value (question mark for an absent binding). -/
def obsHandler : ArgsMap → Str := fun m =>
  (m ("item".toList)).getD ("?".toList) ++ '|' :: (m ("count".toList)).getD ("?".toList)

def itemArg : CommandArg :=
  { name := "item".toList, arg_type := "string".toList, range := none,
    optional := false, default := none }

def countArg : CommandArg :=
  { name := "count".toList, arg_type := "int".toList, range := some (1, 99),
    optional := true, default := some ("1".toList) }

/-- The spec's `give` example: required `item:string`, optional
`count:int` with range 1..99 and default "1". -/
def giveCmd : Command := .mk ("give".toList) [itemArg, countArg] [] (some obsHandler)

def giveReg : CommandRegistry := registerCommand ⟨[]⟩ giveCmd

-- Sanity checks: the three execution examples of the spec.
example : executeCommandE giveReg ("give sword".toList) = .ok (some ("sword|1".toList)) := by decide
example : executeCommandE giveReg ("give".toList) =
    .ok (some ("Missing required argument: item".toList)) := by decide
example : executeCommandE giveReg ("give item:sword count:5".toList) =
    .ok (some ("sword|5".toList)) := by decide


/-- A bare subcommand named `sword`. -/
def swordCmd : Command := .mk ("sword".toList) [] [] none

/-- A `give` command whose first argument is the int-typed `count`. -/
def c7Cmd : Command := .mk ("give".toList) [countArg] [] none

def c7Reg : CommandRegistry := registerCommand ⟨[]⟩ c7Cmd

/-- A `give` command with a single required argument and no subcommands. -/
def c6Cmd : Command := .mk ("give".toList) [itemArg] [] none

def c6Reg : CommandRegistry := registerCommand ⟨[]⟩ c6Cmd

/-- A `give` command with the single subcommand `sword`. -/
def c8Cmd : Command := .mk ("give".toList) [] [swordCmd] none

def c8Reg : CommandRegistry := registerCommand ⟨[]⟩ c8Cmd

/-- The prompt state reached by typing `give sw`: the registry suggests
`give sword` and selects it. -/
def c8St : PromptState :=
  updateSuggestions { promptInit c8Reg with input := ("give sw".toList), cursor_pos := 7 }

/-- A registry holding two commands named `a`: the first has no
subcommands, the second has the subcommand `b`. -/
def dupReg : CommandRegistry :=
  registerCommand (registerCommand ⟨[]⟩ (.mk ("a".toList) [] [] none))
    (.mk ("a".toList) [] [.mk ("b".toList) [] [] none] none)


/-! ## Lemmas: tokens produced by `splitWhitespace`, and the join/split
roundtrip used when `execute_command` and `get_suggestions` re-join token
prefixes and hand them back to `find_command`. -/

/-- A well-formed token: non-empty and free of whitespace characters.
Every token produced by `splitWhitespace` is well formed. -/
def WfTok (t : Str) : Prop :=
  t ≠ [] ∧ ∀ c ∈ t, c.isWhitespace = false

instance (t : Str) : Decidable (WfTok t) := by
  unfold WfTok; infer_instance

theorem splitWhitespaceAux_wf (s : Str) :
    ∀ acc : List Char, (∀ c ∈ acc, c.isWhitespace = false) →
    ∀ t ∈ splitWhitespaceAux acc s, WfTok t := by
  induction s with
  | nil =>
    intro acc hacc t ht
    by_cases h : acc = []
    · simp [splitWhitespaceAux, h] at ht
    · simp only [splitWhitespaceAux, if_neg h, List.mem_singleton] at ht
      subst ht
      refine ⟨by simpa using h, ?_⟩
      intro c hc
      exact hacc c (List.mem_reverse.mp hc)
  | cons c rest ih =>
    intro acc hacc t ht
    by_cases hws : c.isWhitespace
    · simp only [splitWhitespaceAux, if_pos hws, List.mem_append] at ht
      rcases ht with ht | ht
      · by_cases h : acc = []
        · simp [h] at ht
        · simp only [if_neg h, List.mem_singleton] at ht
          subst ht
          refine ⟨by simpa using h, ?_⟩
          intro d hd
          exact hacc d (List.mem_reverse.mp hd)
      · exact ih [] (by simp) t ht
    · simp only [splitWhitespaceAux, if_neg hws] at ht
      refine ih (c :: acc) ?_ t ht
      intro d hd
      rcases List.mem_cons.mp hd with rfl | hd
      · exact Bool.eq_false_iff.mpr hws
      · exact hacc d hd

theorem splitWhitespace_wf (s : Str) : ∀ t ∈ splitWhitespace s, WfTok t :=
  splitWhitespaceAux_wf s [] (by simp)

theorem splitWhitespaceAux_append_token (t : Str) :
    ∀ (acc : List Char) (rest : Str), (∀ c ∈ t, c.isWhitespace = false) →
    splitWhitespaceAux acc (t ++ rest) = splitWhitespaceAux (t.reverse ++ acc) rest := by
  induction t with
  | nil => intro acc rest _; simp
  | cons c t ih =>
    intro acc rest h
    have hc : c.isWhitespace = false := h c (by simp)
    simp only [List.cons_append, splitWhitespaceAux, hc, Bool.false_eq_true, if_false]
    rw [show t.append rest = t ++ rest from rfl,
      ih (c :: acc) rest (fun d hd => h d (List.mem_cons_of_mem c hd))]
    simp

theorem splitWhitespaceAux_space (acc : List Char) (rest : Str) :
    splitWhitespaceAux acc (' ' :: rest) =
    (if acc = [] then [] else [acc.reverse]) ++ splitWhitespaceAux [] rest := by
  simp [splitWhitespaceAux]

theorem splitWhitespace_joinSpace :
    ∀ ts : List Str, (∀ t ∈ ts, WfTok t) → splitWhitespace (joinSpace ts) = ts := by
  intro ts
  induction ts with
  | nil => intro _; rfl
  | cons t ts ih =>
    intro h
    have ht := h t (by simp)
    cases ts with
    | nil =>
      show splitWhitespaceAux [] (joinSpace [t]) = [t]
      have : joinSpace [t] = t ++ [] := by simp [joinSpace]
      rw [this, splitWhitespaceAux_append_token t [] [] ht.2]
      have hne : t.reverse ++ [] ≠ [] := by simpa using ht.1
      simp [splitWhitespaceAux, hne, ht.1]
    | cons t' ts' =>
      show splitWhitespaceAux [] (joinSpace (t :: t' :: ts')) = t :: t' :: ts'
      have : joinSpace (t :: t' :: ts') = t ++ ' ' :: joinSpace (t' :: ts') := rfl
      rw [this, splitWhitespaceAux_append_token t [] _ ht.2,
        splitWhitespaceAux_space]
      have hne : t.reverse ++ [] ≠ [] := by simpa using ht.1
      rw [if_neg hne]
      have := ih (fun u hu => h u (List.mem_cons_of_mem t hu))
      simp only [splitWhitespace] at this
      simp [this]

/-- `splitWhitespace` is the identity on a single well-formed token
(used for `find(s.name)` style calls). -/
theorem splitWhitespace_single {t : Str} (h : WfTok t) : splitWhitespace t = [t] := by
  have := splitWhitespace_joinSpace [t] (by simpa using h)
  simpa [joinSpace] using this

/-- Token-level view of `find_command` on an already-split path. -/
def findTokens (r : CommandRegistry) : List Str → Option Command
  | [] => none
  | p :: rest => findFromTokens r p rest

theorem findCommandE_joinSpace (r : CommandRegistry) {ts : List Str}
    (hne : ts ≠ []) (hwf : ∀ t ∈ ts, WfTok t) :
    findCommandE r (joinSpace ts) = .ok (findTokens r ts) := by
  unfold findCommandE
  rw [splitWhitespace_joinSpace ts hwf]
  cases ts with
  | nil => exact absurd rfl hne
  | cons p rest => rfl

theorem findSub_append (l1 l2 : List Str) :
    ∀ c : Command, findSub (l1 ++ l2) c = (findSub l1 c).bind (fun d => findSub l2 d) := by
  induction l1 with
  | nil => intro c; simp [findSub]
  | cons p rest ih =>
    intro c
    simp only [List.cons_append, findSub]
    cases c.subcommands.find? (fun s => s.name == p) with
    | none => rfl
    | some s => exact ih s

theorem findTokens_append (r : CommandRegistry) {ts : List Str} (us : List Str)
    (hne : ts ≠ []) :
    findTokens r (ts ++ us) = (findTokens r ts).bind (fun c => findSub us c) := by
  cases ts with
  | nil => exact absurd rfl hne
  | cons p rest =>
    simp only [List.cons_append, findTokens, findFromTokens]
    cases r.commands.find? (fun c => c.name == p) with
    | none => rfl
    | some c => exact findSub_append rest us c

/-- Downward closure of prefix resolution: if the `(j+1)`-token prefix of
`parts` resolves, so does the `j`-token prefix. Contrapositive form. -/
theorem findTokens_take_fail_succ (r : CommandRegistry) (parts : List Str) (j : Nat)
    (h1 : 1 ≤ j) (hj : j < parts.length)
    (hfail : findTokens r (parts.take j) = none) :
    findTokens r (parts.take (j + 1)) = none := by
  have htake : parts.take (j + 1) = parts.take j ++ parts[j]?.toList := List.take_succ
  have htne : parts.take j ≠ [] := by
    intro hcon
    rcases List.take_eq_nil_iff.mp hcon with h | h
    · omega
    · simp [h] at hj
  rw [htake, findTokens_append r _ htne, hfail]
  rfl

theorem findTokens_take_fail_mono (r : CommandRegistry) (parts : List Str) (j : Nat)
    (h1 : 1 ≤ j) (hfail : findTokens r (parts.take j) = none) :
    ∀ i, j ≤ i → i ≤ parts.length → findTokens r (parts.take i) = none := by
  intro i
  induction i with
  | zero => intro h _; omega
  | succ i ih =>
    intro hji hlen
    by_cases hcase : j = i + 1
    · subst hcase; exact hfail
    · have hji' : j ≤ i := by omega
      exact findTokens_take_fail_succ r parts i (by omega) (by omega) (ih hji' (by omega))

/-! ## The two resolution strategies stated by the spec -/

/-- Modelled from the spec: "try the full path, then drop the last token
repeatedly" — search downward from the full prefix length for the first
prefix on which `find` succeeds. -/
def dropLastResolve (r : CommandRegistry) (parts : List Str) : Nat → Option Command × Nat
  | 0 => (none, 0)
  | i + 1 =>
    match findCommandE r (joinSpace (parts.take (i + 1))) with
    | .ok (some c) => (some c, i + 1)
    | _ => dropLastResolve r parts i

/-- Modelled from the spec: the greedy longest-match resolution. -/
def longestResolveSpec (r : CommandRegistry) (parts : List Str) : Option Command × Nat :=
  dropLastResolve r parts parts.length

/-- Modelled from the spec: "walk left to right with `find` on increasingly
longer prefixes and remember the last successful one" — no early stop. -/
def scanResolveGo (r : CommandRegistry) (parts : List Str) :
    List Nat → Option Command × Nat → Option Command × Nat
  | [], acc => acc
  | i :: is, acc =>
    scanResolveGo r parts is
      (match findCommandE r (joinSpace (parts.take i)) with
       | .ok (some c) => (some c, i)
       | _ => acc)

def scanResolveSpec (r : CommandRegistry) (parts : List Str) : Option Command × Nat :=
  scanResolveGo r parts (List.range' 1 parts.length) (none, 0)

theorem scanResolveGo_stuck (r : CommandRegistry) (parts : List Str)
    (hwf : ∀ t ∈ parts, WfTok t) :
    ∀ (k j : Nat) (acc : Option Command × Nat), 1 ≤ j →
    j + k ≤ parts.length + 1 →
    (∀ i, j ≤ i → i ≤ parts.length → findTokens r (parts.take i) = none) →
    scanResolveGo r parts (List.range' j k) acc = acc := by
  intro k
  induction k with
  | zero => intro j acc _ _ _; rfl
  | succ k ih =>
    intro j acc h1 hlen hfail
    rw [List.range'_succ]
    have hjlen : j ≤ parts.length := by omega
    have htne : parts.take j ≠ [] := by
      intro hcon
      rcases List.take_eq_nil_iff.mp hcon with h | h
      · omega
      · rw [h] at hjlen; simp at hjlen; omega
    have hwft : ∀ t ∈ parts.take j, WfTok t := fun t ht => hwf t (List.take_subset j parts ht)
    simp only [scanResolveGo, findCommandE_joinSpace r htne hwft, hfail j (by omega) hjlen]
    exact ih (j + 1) acc (by omega) (by omega) (fun i hi hi' => hfail i (by omega) hi')

theorem resolveLoopGo_eq_scanGo (r : CommandRegistry) (parts : List Str)
    (hwf : ∀ t ∈ parts, WfTok t) :
    ∀ (k j : Nat) (acc : Option Command × Nat), 1 ≤ j →
    j + k = parts.length + 1 →
    resolveLoopGo r parts (List.range' j k) acc =
      .ok (scanResolveGo r parts (List.range' j k) acc) := by
  intro k
  induction k with
  | zero => intro j acc _ _; rfl
  | succ k ih =>
    intro j acc h1 hlen
    rw [List.range'_succ]
    have hjlen : j ≤ parts.length := by omega
    have htne : parts.take j ≠ [] := by
      intro hcon
      rcases List.take_eq_nil_iff.mp hcon with h | h
      · omega
      · rw [h] at hjlen; simp at hjlen; omega
    have hwft : ∀ t ∈ parts.take j, WfTok t := fun t ht => hwf t (List.take_subset j parts ht)
    simp only [resolveLoopGo, scanResolveGo, findCommandE_joinSpace r htne hwft]
    cases hS : findTokens r (parts.take j) with
    | some c => exact ih (j + 1) (some c, j) (by omega) (by omega)
    | none =>
      rw [scanResolveGo_stuck r parts hwf k (j + 1) acc (by omega) (by omega)
        (fun i hi hi' => findTokens_take_fail_mono r parts j h1 hS i (by omega) hi')]

theorem scanGo_eq_dropLast (r : CommandRegistry) (parts : List Str) :
    ∀ (k j : Nat), 1 ≤ j → j + k = parts.length + 1 →
    scanResolveGo r parts (List.range' j k) (dropLastResolve r parts (j - 1)) =
      dropLastResolve r parts parts.length := by
  intro k
  induction k with
  | zero =>
    intro j h1 hlen
    have : j - 1 = parts.length := by omega
    rw [this]; rfl
  | succ k ih =>
    intro j h1 hlen
    rw [List.range'_succ]
    have hj : j - 1 + 1 = j := by omega
    have hacc : (match findCommandE r (joinSpace (parts.take j)) with
        | .ok (some c) => (some c, j)
        | _ => dropLastResolve r parts (j - 1)) = dropLastResolve r parts j := by
      conv_rhs => rw [← hj]
      rw [dropLastResolve, hj]
    simp only [scanResolveGo]
    rw [hacc]
    have := ih (j + 1) (by omega) (by omega)
    simpa using this

/-- The loop in `execute_command` computes the greedy longest-match
resolution, never panicking. -/
theorem resolveLoop_eq_longest (r : CommandRegistry) (parts : List Str)
    (hwf : ∀ t ∈ parts, WfTok t) :
    resolveLoop r parts = .ok (longestResolveSpec r parts) := by
  unfold resolveLoop longestResolveSpec
  rw [resolveLoopGo_eq_scanGo r parts hwf parts.length 1 (none, 0) (by omega) (by omega)]
  have := scanGo_eq_dropLast r parts parts.length 1 (by omega) (by omega)
  simpa using this

theorem scanSpec_eq_longest (r : CommandRegistry) (parts : List Str) :
    scanResolveSpec r parts = longestResolveSpec r parts := by
  unfold scanResolveSpec longestResolveSpec
  have := scanGo_eq_dropLast r parts parts.length 1 (by omega) (by omega)
  simpa using this

/-- C2: for every input, the resolution loop of `execute_command` computes
the greedy longest-match command (spec strategy one: drop the last token
repeatedly), that strategy coincides with the left-to-right scan that
remembers the last successful prefix (spec strategy two), and when no prefix
resolves `execute_command` returns absence. -/
theorem c2_greedy_longest_resolution (r : CommandRegistry) (input : Str) :
    resolveLoop r (splitWhitespace (trimStr input)) =
      .ok (longestResolveSpec r (splitWhitespace (trimStr input)))
    ∧ scanResolveSpec r (splitWhitespace (trimStr input)) =
      longestResolveSpec r (splitWhitespace (trimStr input))
    ∧ ((longestResolveSpec r (splitWhitespace (trimStr input))).1 = none →
        executeCommandE r input = .ok none) := by
  refine ⟨resolveLoop_eq_longest r _ (splitWhitespace_wf _), scanSpec_eq_longest r _, ?_⟩
  intro hnone
  unfold executeCommandE
  by_cases hp : (splitWhitespace (trimStr input)).isEmpty
  · simp [hp]
  · simp only [hp, Bool.false_eq_true, if_false]
    rw [resolveLoop_eq_longest r _ (splitWhitespace_wf _)]
    rcases h : longestResolveSpec r (splitWhitespace (trimStr input)) with ⟨c, n⟩
    rw [h] at hnone
    simp only at hnone
    subst hnone
    rfl

/-- Witness for C2 at a concrete unresolvable input. -/
theorem c2_greedy_longest_resolution_witness :
    executeCommandE giveReg ("zzz".toList) = .ok none :=
  (c2_greedy_longest_resolution giveReg ("zzz".toList)).2.2 rfl

/-! ## Panic analysis of `find_command` and totality of its callers -/

theorem splitWhitespaceAux_all_ws :
    ∀ s : Str, (∀ c ∈ s, c.isWhitespace = true) → splitWhitespaceAux [] s = [] := by
  intro s
  induction s with
  | nil => intro _; rfl
  | cons c rest ih =>
    intro h
    have hc : c.isWhitespace = true := h c (by simp)
    simp only [splitWhitespaceAux, hc, if_pos, if_true]
    simpa using ih (fun d hd => h d (List.mem_cons_of_mem c hd))

/-- A whitespace-only (or empty) string splits to no tokens. -/
theorem splitWhitespace_all_ws (s : Str) (h : ∀ c ∈ s, c.isWhitespace = true) :
    splitWhitespace s = [] :=
  splitWhitespaceAux_all_ws s h

theorem getSuggestionsE_isOk (r : CommandRegistry) (input : Str) :
    ∃ v, getSuggestionsE r input = .ok v := by
  unfold getSuggestionsE
  cases hsp : splitWhitespace (trimStr input) with
  | nil => exact ⟨_, rfl⟩
  | cons p0 rest =>
    by_cases hlen : (p0 :: rest).length = 1
    · simp only [hlen, if_pos]
      exact ⟨_, rfl⟩
    · simp only [if_neg hlen]
      have hlen2 : 2 ≤ (p0 :: rest).length := by
        simp only [List.length_cons] at hlen ⊢
        omega
      have hwf : ∀ t ∈ (p0 :: rest).take ((p0 :: rest).length - 1), WfTok t := by
        intro t ht
        have hmem : t ∈ p0 :: rest := List.take_subset _ _ ht
        rw [← hsp] at hmem
        exact splitWhitespace_wf _ t hmem
      have htne : (p0 :: rest).take ((p0 :: rest).length - 1) ≠ [] := by
        intro hcon
        rcases List.take_eq_nil_iff.mp hcon with h | h
        · omega
        · simp at h
      rw [findCommandE_joinSpace r htne hwf]
      cases findTokens r ((p0 :: rest).take ((p0 :: rest).length - 1)) with
      | none => exact ⟨_, rfl⟩
      | some command =>
        dsimp only
        split
        · split
          · exact ⟨_, rfl⟩
          · exact ⟨_, rfl⟩
        · split
          · exact ⟨_, rfl⟩
          · exact ⟨_, rfl⟩

theorem executeCommandE_isOk (r : CommandRegistry) (input : Str) :
    ∃ v, executeCommandE r input = .ok v := by
  unfold executeCommandE
  by_cases hp : (splitWhitespace (trimStr input)).isEmpty
  · simp only [hp, if_pos, if_true]
    exact ⟨_, rfl⟩
  · simp only [hp, Bool.false_eq_true, if_false]
    rw [resolveLoop_eq_longest r _ (splitWhitespace_wf _)]
    rcases longestResolveSpec r (splitWhitespace (trimStr input)) with ⟨c, n⟩
    cases c with
    | none => exact ⟨_, rfl⟩
    | some command =>
      dsimp only
      cases assignArgs (positionalOf ((splitWhitespace (trimStr input)).drop n))
          (namedArgsOf ((splitWhitespace (trimStr input)).drop n)) command.args with
      | error msg => exact ⟨_, rfl⟩
      | ok args => exact ⟨_, rfl⟩

/-- C10: `find_command` is not total on empty paths: a path with no tokens
(empty or whitespace-only) hits the out-of-bounds panic (`parts[0]` on an
empty vector), while any path with at least one token returns normally; and
the registry-internal callers `get_suggestions` and `execute_command` never
reach the panic branch for any input. -/
theorem c10_find_command_panic_on_empty_path :
    (∀ (r : CommandRegistry) (s : Str), splitWhitespace s = [] →
      findCommandE r s = .error "panic: index out of bounds (parts[0] on an empty token list)")
    ∧ (∀ (r : CommandRegistry) (s : Str), (∀ c ∈ s, c.isWhitespace = true) →
      findCommandE r s = .error "panic: index out of bounds (parts[0] on an empty token list)")
    ∧ (∀ (r : CommandRegistry) (s : Str), splitWhitespace s ≠ [] →
      ∃ v, findCommandE r s = .ok v)
    ∧ (∀ (r : CommandRegistry) (input : Str), ∃ v, getSuggestionsE r input = .ok v)
    ∧ (∀ (r : CommandRegistry) (input : Str), ∃ v, executeCommandE r input = .ok v) := by
  refine ⟨?_, ?_, ?_, getSuggestionsE_isOk, executeCommandE_isOk⟩
  · intro r s h
    unfold findCommandE
    rw [h]
  · intro r s h
    unfold findCommandE
    rw [splitWhitespace_all_ws s h]
  · intro r s h
    unfold findCommandE
    cases hsp : splitWhitespace s with
    | nil => exact absurd hsp h
    | cons p0 rest => exact ⟨_, rfl⟩

/-- Witness for C10: the panic on a whitespace-only path and normal returns
of the callers, at concrete inputs. -/
theorem c10_find_command_panic_on_empty_path_witness :
    findCommandE giveReg (" ".toList) =
      .error "panic: index out of bounds (parts[0] on an empty token list)"
    ∧ (∃ v, findCommandE giveReg ("give".toList) = .ok v)
    ∧ (∃ v, getSuggestionsE giveReg (" ".toList) = .ok v)
    ∧ (∃ v, executeCommandE giveReg (" ".toList) = .ok v) :=
  ⟨c10_find_command_panic_on_empty_path.1 giveReg (" ".toList) (by decide),
   c10_find_command_panic_on_empty_path.2.2.1 giveReg ("give".toList) (by decide),
   c10_find_command_panic_on_empty_path.2.2.2.1 giveReg (" ".toList),
   c10_find_command_panic_on_empty_path.2.2.2.2 giveReg (" ".toList)⟩

/-! ## Argument binding (C1) -/

/-- Modelled from the spec: the value the i-th argument receives — the i-th
positional token if present, else the named value for its name, else its
declared default (`none` when an optional argument stays unbound). -/
def boundValue (pos : List Str) (named : ArgsMap) (a : CommandArg) (i : Nat) : Option Str :=
  if i < pos.length then pos.get? i
  else
    match named a.name with
    | some v => some v
    | none => a.default

/-- The i-th argument cannot be bound: no positional token, no named value,
no default, and the argument is required. -/
def failsAtB (pos : List Str) (named : ArgsMap) (a : CommandArg) (i : Nat) : Bool :=
  decide (pos.length ≤ i) && (named a.name).isNone && a.default.isNone && !a.optional

/-- The first argument position (binding proceeds in stored order) at which
binding fails, if any. -/
def firstFailIdx (pos : List Str) (named : ArgsMap) :
    List CommandArg → Nat → Option (Nat × CommandArg)
  | [], _ => none
  | a :: rest, i =>
    if failsAtB pos named a i then some (i, a) else firstFailIdx pos named rest (i + 1)

theorem assignArgsGo_ok_spec (pos : List Str) (named : ArgsMap) :
    ∀ (as : List CommandArg) (i : Nat) (acc : ArgsMap),
    (as.map CommandArg.name).Nodup →
    firstFailIdx pos named as i = none →
    ∃ m, assignArgsGo pos named as i acc = .ok m
      ∧ (∀ j a, as.get? j = some a →
          m a.name = (match boundValue pos named a (i + j) with
            | some v => some v
            | none => acc a.name))
      ∧ (∀ x, (∀ a ∈ as, a.name ≠ x) → m x = acc x) := by
  intro as
  induction as with
  | nil =>
    intro i acc _ _
    refine ⟨acc, rfl, ?_, fun x _ => rfl⟩
    intro j a hj
    simp at hj
  | cons a rest ih =>
    intro i acc hnodup hff
    have hnd := hnodup
    simp only [List.map_cons, List.nodup_cons, List.mem_map] at hnd
    have hbname : ∀ b ∈ rest, b.name ≠ a.name := by
      intro b hb hcon
      exact hnd.1 (⟨b, hb, hcon⟩)
    have hrestnodup : (rest.map CommandArg.name).Nodup := hnd.2
    simp only [firstFailIdx] at hff
    by_cases hfa : failsAtB pos named a i = true
    · rw [if_pos hfa] at hff; exact absurd hff (by simp)
    · rw [if_neg (by simpa using hfa)] at hff
      -- helper to finish each continuation branch with updated accumulator
      have main : ∀ (acc' : ArgsMap),
          (acc' a.name = (match boundValue pos named a i with
            | some v => some v
            | none => acc a.name)) →
          (∀ y, y ≠ a.name → acc' y = acc y) →
          assignArgsGo pos named rest (i + 1) acc' =
            assignArgsGo pos named (a :: rest) i acc →
          ∃ m, assignArgsGo pos named (a :: rest) i acc = .ok m
            ∧ (∀ j b, (a :: rest).get? j = some b →
                m b.name = (match boundValue pos named b (i + j) with
                  | some v => some v
                  | none => acc b.name))
            ∧ (∀ x, (∀ b ∈ a :: rest, b.name ≠ x) → m x = acc x) := by
        intro acc' hself hother hgo
        obtain ⟨m, hm, hmem, hout⟩ := ih (i + 1) acc' hrestnodup hff
        refine ⟨m, by rw [← hgo]; exact hm, ?_, ?_⟩
        · intro j b hj
          cases j with
          | zero =>
            simp only [List.get?_cons_zero, Option.some.injEq] at hj
            subst hj
            have hma : m a.name = acc' a.name := hout a.name (fun c hc => hbname c hc)
            rw [Nat.add_zero, hma]
            exact hself
          | succ j =>
            simp only [List.get?_cons_succ] at hj
            have hmb := hmem j b hj
            have harith : i + 1 + j = i + (j + 1) := by omega
            rw [harith] at hmb
            rw [hmb]
            cases hbv : boundValue pos named b (i + (j + 1)) with
            | some v => rfl
            | none =>
              exact hother b.name (by
                intro hcon
                have hbmem : b ∈ rest := List.get?_mem hj
                exact hbname b hbmem hcon)
        · intro x hx
          have h1 : m x = acc' x := hout x (fun b hb => hx b (List.mem_cons_of_mem a hb))
          have h2 : acc' x = acc x := hother x (fun hcon => hx a (by simp) hcon.symm)
          rw [h1, h2]
      by_cases hpos : i < pos.length
      · refine main (insertArg acc a.name (pos.get ⟨i, hpos⟩)) ?_ ?_ ?_
        · simp [insertArg, boundValue, hpos, List.get?_eq_get hpos]
        · intro y hy; simp only [insertArg, if_neg hy]
        · simp only [assignArgsGo, dif_pos hpos]
      · have hnp : ¬ i < pos.length := hpos
        have hple : pos.length ≤ i := by omega
        cases hnamed : named a.name with
        | some v =>
          refine main (insertArg acc a.name v) ?_ ?_ ?_
          · simp [insertArg, boundValue, hnp, hnamed]
          · intro y hy; simp only [insertArg, if_neg hy]
          · simp only [assignArgsGo, dif_neg hnp, hnamed]
        | none =>
          cases hdef : a.default with
          | some d =>
            refine main (insertArg acc a.name d) ?_ ?_ ?_
            · simp [insertArg, boundValue, hnp, hnamed, hdef]
            · intro y hy; simp only [insertArg, if_neg hy]
            · simp only [assignArgsGo, dif_neg hnp, hnamed, hdef]
          | none =>
            have hopt : a.optional = true := by
              cases hoptc : a.optional
              · exfalso
                apply hfa
                simp [failsAtB, hple, hnamed, hdef, hoptc]
              · rfl
            refine main acc ?_ (fun y _ => rfl) ?_
            · simp [boundValue, hnp, hnamed, hdef]
            · simp only [assignArgsGo, dif_neg hnp, hnamed, hdef, hopt, if_pos, if_true]

theorem assignArgsGo_fail_spec (pos : List Str) (named : ArgsMap) :
    ∀ (as : List CommandArg) (i : Nat) (acc : ArgsMap) (i0 : Nat) (a0 : CommandArg),
    firstFailIdx pos named as i = some (i0, a0) →
    assignArgsGo pos named as i acc =
      .error ("Missing required argument: ".toList ++ a0.name) := by
  intro as
  induction as with
  | nil => intro i acc i0 a0 h; simp [firstFailIdx] at h
  | cons a rest ih =>
    intro i acc i0 a0 h
    simp only [firstFailIdx] at h
    by_cases hfa : failsAtB pos named a i = true
    · rw [if_pos hfa] at h
      simp only [Option.some.injEq, Prod.mk.injEq] at h
      have hfa2 := hfa
      simp only [failsAtB, Bool.and_eq_true, decide_eq_true_eq,
        Option.isNone_iff_eq_none, Bool.not_eq_true'] at hfa2
      obtain ⟨⟨⟨hple, hnamed⟩, hdef⟩, hopt⟩ := hfa2
      simp only [assignArgsGo, dif_neg (show ¬ i < pos.length by omega), hnamed, hdef,
        hopt, Bool.false_eq_true, if_false]
      rw [← h.2]
    · rw [if_neg (by simpa using hfa)] at h
      by_cases hpos : i < pos.length
      · simp only [assignArgsGo, dif_pos hpos]
        exact ih (i + 1) _ i0 a0 h
      · cases hnamed : named a.name with
        | some v =>
          simp only [assignArgsGo, dif_neg hpos, hnamed]
          exact ih (i + 1) _ i0 a0 h
        | none =>
          cases hdef : a.default with
          | some d =>
            simp only [assignArgsGo, dif_neg hpos, hnamed, hdef]
            exact ih (i + 1) _ i0 a0 h
          | none =>
            have hple : pos.length ≤ i := by omega
            have hopt : a.optional = true := by
              cases hoptc : a.optional
              · exfalso; apply hfa; simp [failsAtB, hple, hnamed, hdef, hoptc]
              · rfl
            simp only [assignArgsGo, dif_neg hpos, hnamed, hdef, hopt, if_true]
            exact ih (i + 1) acc i0 a0 h

/-- C1: when the tokens of the input resolve to a registered command,
`execute_command` binds arguments in the command's stored order — the i-th
argument takes the i-th positional tail token, else the named tail value for
its name, else its declared default; the first required argument with none
of these short-circuits into a descriptive missing-required-argument result
without invoking the handler; otherwise the handler receives the complete
mapping. In particular the three `give` examples of the spec hold. -/
theorem c1_argument_binding :
    (∀ (r : CommandRegistry) (input : Str) (command : Command) (n : Nat)
        (pos : List Str) (named : ArgsMap),
      resolveLoop r (splitWhitespace (trimStr input)) = .ok (some command, n) →
      pos = positionalOf ((splitWhitespace (trimStr input)).drop n) →
      named = namedArgsOf ((splitWhitespace (trimStr input)).drop n) →
      (command.args.map CommandArg.name).Nodup →
      ((firstFailIdx pos named command.args 0 = none →
        ∃ m, executeCommandE r input = .ok (command.handler.map (fun f => f m))
          ∧ (∀ j a, command.args.get? j = some a → m a.name = boundValue pos named a j)
          ∧ (∀ x, (∀ a ∈ command.args, a.name ≠ x) → m x = none))
      ∧ (∀ i0 a0, firstFailIdx pos named command.args 0 = some (i0, a0) →
          executeCommandE r input =
            .ok (some ("Missing required argument: ".toList ++ a0.name)))))
    ∧ executeCommandE giveReg ("give sword".toList) = .ok (some ("sword|1".toList))
    ∧ executeCommandE giveReg ("give".toList) =
        .ok (some ("Missing required argument: item".toList))
    ∧ executeCommandE giveReg ("give item:sword count:5".toList) =
        .ok (some ("sword|5".toList)) := by
  refine ⟨?_, by decide, by decide, by decide⟩
  intro r input command n pos named hres hpos hnamed hnodup
  subst hpos; subst hnamed
  have hne : splitWhitespace (trimStr input) ≠ [] := by
    intro hcon
    rw [hcon] at hres
    simp [resolveLoop, resolveLoopGo, List.range'] at hres
  have hexe : executeCommandE r input =
      match assignArgs (positionalOf ((splitWhitespace (trimStr input)).drop n))
          (namedArgsOf ((splitWhitespace (trimStr input)).drop n)) command.args with
      | .error msg => .ok (some msg)
      | .ok args => .ok (command.handler.map (fun f => f args)) := by
    unfold executeCommandE
    rw [if_neg (show ¬ (splitWhitespace (trimStr input)).isEmpty = true by
      simpa [List.isEmpty_iff] using hne)]
    rw [hres]
  constructor
  · intro hff
    obtain ⟨m, hm, hmem, hout⟩ :=
      assignArgsGo_ok_spec _ _ command.args 0 emptyArgs hnodup hff
    refine ⟨m, ?_, ?_, ?_⟩
    · rw [hexe]
      unfold assignArgs
      rw [hm]
    · intro j a hj
      have hbv := hmem j a hj
      simp only [Nat.zero_add] at hbv
      rw [hbv]
      cases boundValue (positionalOf ((splitWhitespace (trimStr input)).drop n))
          (namedArgsOf ((splitWhitespace (trimStr input)).drop n)) a j with
      | some v => rfl
      | none => rfl
    · intro x hx
      exact hout x hx
  · intro i0 a0 hff
    rw [hexe]
    unfold assignArgs
    rw [assignArgsGo_fail_spec _ _ command.args 0 emptyArgs i0 a0 hff]

/-- Witness for C1: the general part applied to the registered `give`
command on input `give sword`, with every hypothesis discharged there. -/
theorem c1_argument_binding_witness :
    ∃ m, executeCommandE giveReg ("give sword".toList) =
        .ok (giveCmd.handler.map (fun f => f m))
      ∧ (∀ j a, giveCmd.args.get? j = some a →
          m a.name = boundValue
            (positionalOf ((splitWhitespace (trimStr ("give sword".toList))).drop 1))
            (namedArgsOf ((splitWhitespace (trimStr ("give sword".toList))).drop 1)) a j)
      ∧ (∀ x, (∀ a ∈ giveCmd.args, a.name ≠ x) → m x = none) :=
  (c1_argument_binding.1 giveReg ("give sword".toList) giveCmd 1 _ _ rfl rfl rfl
    (by decide)).1 (by decide)

/-! ## Registration (C3) -/

mutual

/-- The order in which `register_command` visits a command tree: the command
itself first, then its subcommands depth-first, left to right. -/
def preorderCmds : Command → List Command
  | .mk n args subs h => .mk n args subs h :: preorderList subs

def preorderList : List Command → List Command
  | [] => []
  | c :: cs => preorderCmds c ++ preorderList cs

end

mutual

theorem registerCommand_spec : ∀ (c : Command) (r : CommandRegistry),
    (registerCommand r c).commands = r.commands ++ (preorderCmds c).map storeReorder
  | .mk n args subs h, r => by
    show (registerCommandList ⟨r.commands ++ [storeReorder (.mk n args subs h)]⟩ subs).commands
        = _
    rw [registerCommandList_spec subs _]
    simp [preorderCmds]

theorem registerCommandList_spec : ∀ (cs : List Command) (r : CommandRegistry),
    (registerCommandList r cs).commands = r.commands ++ (preorderList cs).map storeReorder
  | [], r => by simp [registerCommandList, preorderList]
  | c :: cs, r => by
    show (registerCommandList (registerCommand r c) cs).commands = _
    rw [registerCommandList_spec cs _, registerCommand_spec c r]
    simp [preorderList]

end

theorem storeReorder_args_perm (args : List CommandArg) :
    (args.filter (fun a => !a.optional) ++ args.filter (fun a => a.optional)).Perm args := by
  have h := List.filter_append_perm (fun a : CommandArg => !a.optional) args
  simpa [Bool.not_not] using h

theorem storeReorder_args_pairwise (args : List CommandArg) :
    (args.filter (fun a => !a.optional) ++ args.filter (fun a => a.optional)).Pairwise
      (fun a b => a.optional = true → b.optional = true) := by
  rw [List.pairwise_append]
  refine ⟨List.pairwise_of_forall_mem_list ?_, List.pairwise_of_forall_mem_list ?_, ?_⟩
  · intro a ha b _ hopt
    have hfa := (List.mem_filter.mp ha).2
    rw [hopt] at hfa
    simp at hfa
  · intro _ _ b hb _
    simpa using (List.mem_filter.mp hb).2
  · intro _ _ b hb _
    simpa using (List.mem_filter.mp hb).2

theorem storeReorder_filter_required (args : List CommandArg) :
    ((args.filter (fun a => !a.optional) ++ args.filter (fun a => a.optional)).filter
      (fun a => !a.optional)) = args.filter (fun a => !a.optional) := by
  induction args with
  | nil => rfl
  | cons a rest ih =>
    cases hopt : a.optional with
    | false => simp [List.filter_append, List.filter_filter, hopt]
    | true => simp [List.filter_append, List.filter_filter, hopt]

theorem storeReorder_filter_optional (args : List CommandArg) :
    ((args.filter (fun a => !a.optional) ++ args.filter (fun a => a.optional)).filter
      (fun a => a.optional)) = args.filter (fun a => a.optional) := by
  induction args with
  | nil => rfl
  | cons a rest ih =>
    cases hopt : a.optional with
    | false => simp [List.filter_append, List.filter_filter, hopt]
    | true => simp [List.filter_append, List.filter_filter, hopt]

/-- C3: registration stores, for the registered command and every subcommand
visited by the recursion, a top-level entry whose argument list is the
stable required-first reordering of the caller-supplied one: every required
argument precedes every optional one, each partition keeps its original
relative order, and the multiset of arguments is unchanged (name,
subcommands and handler are untouched). -/
theorem c3_stable_required_first :
    ∀ (r : CommandRegistry) (c : Command),
    (registerCommand r c).commands = r.commands ++ (preorderCmds c).map storeReorder
    ∧ (∀ orig : Command,
        (storeReorder orig).name = orig.name
        ∧ (storeReorder orig).subcommands = orig.subcommands
        ∧ (storeReorder orig).handler = orig.handler
        ∧ (storeReorder orig).args.Perm orig.args
        ∧ (storeReorder orig).args.Pairwise (fun a b => a.optional = true → b.optional = true)
        ∧ (storeReorder orig).args.filter (fun a => !a.optional) =
            orig.args.filter (fun a => !a.optional)
        ∧ (storeReorder orig).args.filter (fun a => a.optional) =
            orig.args.filter (fun a => a.optional)) := by
  intro r c
  refine ⟨registerCommand_spec c r, ?_⟩
  intro orig
  cases orig with
  | mk n args subs h =>
    exact ⟨rfl, rfl, rfl, storeReorder_args_perm args, storeReorder_args_pairwise args,
      storeReorder_filter_required args, storeReorder_filter_optional args⟩

/-! ## Exact-chain lookup (C4) -/

/-- Modelled from the spec: a chain of exact subcommand name matches below a
given command. -/
def chainSub : Command → List Str → Bool
  | _, [] => true
  | c, t :: ts => c.subcommands.any (fun s => s.name == t && chainSub s ts)

/-- Modelled from the spec: "a top-level command named `a` exists with a
subcommand named `b` which has a subcommand named `c`" — existence of an
exact name chain for the token sequence. -/
def chainExistsB (r : CommandRegistry) : List Str → Bool
  | [] => false
  | t :: ts => r.commands.any (fun c => c.name == t && chainSub c ts)

/-- Name-uniqueness down a command tree: each `subcommands` list carries
pairwise distinct names (the spec declares duplicate registration a
programmer error). -/
inductive UniqCmd : Command → Prop where
  | mk : ∀ (n : Str) (args : List CommandArg) (subs : List Command)
      (h : Option (ArgsMap → Str)),
      (subs.map Command.name).Nodup → (∀ s ∈ subs, UniqCmd s) →
      UniqCmd (.mk n args subs h)

/-- Name-uniqueness for a registry: top-level names are pairwise distinct
and every command tree is uniquely named. -/
def RegUniq (r : CommandRegistry) : Prop :=
  (r.commands.map Command.name).Nodup ∧ ∀ c ∈ r.commands, UniqCmd c

theorem any_name_eq_find? (t : Str) (P : Command → Bool) :
    ∀ l : List Command, (l.map Command.name).Nodup →
    l.any (fun c => c.name == t && P c) =
      (match l.find? (fun c => c.name == t) with
       | some c => P c
       | none => false) := by
  intro l
  induction l with
  | nil => intro _; rfl
  | cons c0 rest ih =>
    intro hnodup
    have hnd := hnodup
    simp only [List.map_cons, List.nodup_cons, List.mem_map] at hnd
    have hnoname : ∀ x ∈ rest, x.name ≠ c0.name := by
      intro x hx hcon
      exact hnd.1 ⟨x, hx, hcon⟩
    by_cases hbeq : (c0.name == t) = true
    · have hname : c0.name = t := by simpa using hbeq
      rw [List.any_cons, @List.find?_cons_of_pos Command (fun c => c.name == t) c0 rest hbeq]
      have hrest : rest.any (fun c => c.name == t && P c) = false := by
        rw [List.any_eq_false]
        intro c hc
        have hct : c.name ≠ t := fun hcon => hnoname c hc (hcon.trans hname.symm)
        simp [hct]
      simp [hbeq, hrest]
    · rw [List.any_cons, @List.find?_cons_of_neg Command (fun c => c.name == t) c0 rest hbeq,
        ih hnd.2]
      simp [hbeq]

theorem findSub_isSome_iff_chainSub :
    ∀ (ts : List Str) (c : Command), UniqCmd c →
    ((findSub ts c).isSome ↔ chainSub c ts = true) := by
  intro ts
  induction ts with
  | nil => intro c _; simp [findSub, chainSub]
  | cons t ts ih =>
    intro c hu
    have hnodup : (c.subcommands.map Command.name).Nodup := by
      cases hu with
      | mk n args subs h hnd hsub => exact hnd
    have hsubu : ∀ s ∈ c.subcommands, UniqCmd s := by
      cases hu with
      | mk n args subs h hnd hsub => exact hsub
    have hunfc : chainSub c (t :: ts) =
        c.subcommands.any (fun s => s.name == t && chainSub s ts) := by
      cases c; rfl
    have hunff : findSub (t :: ts) c =
        (match c.subcommands.find? (fun s => s.name == t) with
         | none => none
         | some s => findSub ts s) := rfl
    rw [hunfc, any_name_eq_find? t (fun s => chainSub s ts) c.subcommands hnodup, hunff]
    cases hf : c.subcommands.find? (fun s => s.name == t) with
    | none => simp
    | some s =>
      have hsmem : s ∈ c.subcommands := List.mem_of_find?_eq_some hf
      simpa using ih s (hsubu s hsmem)

theorem findTokens_isSome_iff_chain (r : CommandRegistry) (t : Str) (ts : List Str)
    (hu : RegUniq r) :
    (findTokens r (t :: ts)).isSome ↔ chainExistsB r (t :: ts) = true := by
  have hunfc : chainExistsB r (t :: ts) =
      r.commands.any (fun c => c.name == t && chainSub c ts) := rfl
  have hunff : findTokens r (t :: ts) =
      (match r.commands.find? (fun c => c.name == t) with
       | none => none
       | some c => findSub ts c) := rfl
  rw [hunfc, any_name_eq_find? t (fun c => chainSub c ts) r.commands hu.1, hunff]
  cases hf : r.commands.find? (fun c => c.name == t) with
  | none => simp
  | some c =>
    have hcmem : c ∈ r.commands := List.mem_of_find?_eq_some hf
    simpa using findSub_isSome_iff_chainSub ts c (hu.2 c hcmem)

/-- C4 (amended): with pairwise-distinct command names — the spec declares
duplicate registration a programmer error — `find` on a token path succeeds
exactly when an exact name chain for the tokens exists, and a broken chain
yields absence, never a partial result. -/
theorem c4_find_iff_chain (r : CommandRegistry) (ts : List Str)
    (hne : ts ≠ []) (hwf : ∀ t ∈ ts, WfTok t) (hu : RegUniq r) :
    ((∃ c, findCommandE r (joinSpace ts) = .ok (some c)) ↔ chainExistsB r ts = true)
    ∧ (chainExistsB r ts = false → findCommandE r (joinSpace ts) = .ok none) := by
  rw [findCommandE_joinSpace r hne hwf]
  cases ts with
  | nil => exact absurd rfl hne
  | cons t ts =>
    have hiff := findTokens_isSome_iff_chain r t ts hu
    constructor
    · constructor
      · rintro ⟨c, hc⟩
        have hsome : findTokens r (t :: ts) = some c := by
          injection hc
        exact hiff.mp (by simp [hsome])
      · intro hch
        obtain ⟨c, hc⟩ := Option.isSome_iff_exists.mp (hiff.mpr hch)
        exact ⟨c, by rw [hc]⟩
    · intro hch
      have hns : ¬ (findTokens r (t :: ts)).isSome = true := by
        rw [hiff, hch]; simp
      rw [Option.not_isSome_iff_eq_none.mp hns]

/-- Counterexample to C4 as stated: in `dupReg` a top-level command named
`a` with a subcommand named `b` exists (the second registered `a`), yet
`find "a b"` returns absence because lookup takes the first command named
`a`, which has no subcommands. -/
theorem c4_counterexample :
    chainExistsB dupReg ["a".toList, "b".toList] = true
    ∧ findCommandE dupReg ("a b".toList) = .ok none :=
  ⟨by decide, rfl⟩

/-- Witness for C4 (amended) on the uniquely-named registry `c8Reg`. -/
theorem c4_find_iff_chain_witness :
    ((∃ c, findCommandE c8Reg (joinSpace ["give".toList, "sword".toList]) = .ok (some c)) ↔
      chainExistsB c8Reg ["give".toList, "sword".toList] = true)
    ∧ (chainExistsB c8Reg ["give".toList, "sword".toList] = false →
        findCommandE c8Reg (joinSpace ["give".toList, "sword".toList]) = .ok none) :=
  c4_find_iff_chain c8Reg ["give".toList, "sword".toList] (by simp) (by decide)
    ⟨by decide, by
      intro c hc
      have husw : UniqCmd swordCmd := UniqCmd.mk _ _ _ _ (by simp) (by simp)
      have hcs : c8Reg.commands = [Command.mk ("give".toList) [] [swordCmd] none,
          Command.mk ("sword".toList) [] [] none] := rfl
      rw [hcs] at hc
      rcases List.mem_cons.mp hc with rfl | hc2
      · refine UniqCmd.mk _ _ _ _ (by simp) ?_
        intro s hs
        rcases List.mem_singleton.mp hs with rfl
        exact husw
      · rcases List.mem_singleton.mp hc2 with rfl
        exact UniqCmd.mk _ _ _ _ (by simp) (by simp)⟩

/-! ## Subcommand flattening (C5) -/

theorem storeReorder_name (c : Command) : (storeReorder c).name = c.name := by
  cases c; rfl

theorem storeReorder_subcommands (c : Command) :
    (storeReorder c).subcommands = c.subcommands := by
  cases c; rfl

theorem storeReorder_args (c : Command) :
    (storeReorder c).args =
      c.args.filter (fun a => !a.optional) ++ c.args.filter (fun a => a.optional) := by
  cases c; rfl

theorem preorderCmds_eq (c : Command) :
    preorderCmds c = c :: preorderList c.subcommands := by
  cases c; rfl

theorem mem_preorderList_self : ∀ (cs : List Command) (c : Command),
    c ∈ cs → c ∈ preorderList cs := by
  intro cs
  induction cs with
  | nil => intro c hc; simp at hc
  | cons c0 rest ih =>
    intro c hc
    rw [show preorderList (c0 :: rest) = preorderCmds c0 ++ preorderList rest from rfl]
    rcases List.mem_cons.mp hc with rfl | hc2
    · apply List.mem_append_left
      rw [preorderCmds_eq]
      exact List.mem_cons_self _ _
    · exact List.mem_append_right _ (ih c hc2)

/-- C5 (amended): registering `c` keeps each subcommand `s` inside the
stored parent's `subcommands` list and also registers `s` (arguments
reordered required-first) as an independent top-level entry, so
`find (c.name ++ " " ++ s.name)` and `find s.name` both succeed — provided
the names are whitespace-free tokens and no previously registered top-level
command already bears `c`'s name (lookup takes the first name match). -/
theorem c5_subcommand_registration (r : CommandRegistry) (c s : Command)
    (hmem : s ∈ c.subcommands)
    (hwc : WfTok c.name) (hws : WfTok s.name)
    (hfresh : ∀ e ∈ r.commands, e.name ≠ c.name) :
    (∃ p, p ∈ (registerCommand r c).commands ∧ p.name = c.name
       ∧ p.subcommands = c.subcommands)
    ∧ (∃ d, findCommandE (registerCommand r c) (joinSpace [c.name, s.name]) = .ok (some d))
    ∧ (∃ d, findCommandE (registerCommand r c) s.name = .ok (some d))
    ∧ (∃ e, e ∈ (registerCommand r c).commands ∧ e.name = s.name
       ∧ e.args = s.args.filter (fun a => !a.optional)
            ++ s.args.filter (fun a => a.optional)) := by
  have hspec := registerCommand_spec c r
  have hhead : storeReorder c ∈ (registerCommand r c).commands := by
    rw [hspec]
    apply List.mem_append_right
    exact List.mem_map_of_mem storeReorder (by rw [preorderCmds_eq]; exact List.mem_cons_self _ _)
  have hsmem : storeReorder s ∈ (registerCommand r c).commands := by
    rw [hspec]
    apply List.mem_append_right
    refine List.mem_map_of_mem storeReorder ?_
    rw [preorderCmds_eq]
    exact List.mem_cons_of_mem _ (mem_preorderList_self c.subcommands s hmem)
  have hfindhead : (registerCommand r c).commands.find? (fun e => e.name == c.name)
      = some (storeReorder c) := by
    rw [hspec, List.find?_append]
    have h1 : r.commands.find? (fun e => e.name == c.name) = none := by
      rw [List.find?_eq_none]
      intro e he
      simpa using hfresh e he
    rw [h1, Option.none_or, preorderCmds_eq, List.map_cons]
    exact @List.find?_cons_of_pos Command (fun e => e.name == c.name) (storeReorder c) _
      (by simp [storeReorder_name])
  refine ⟨⟨storeReorder c, hhead, storeReorder_name c, storeReorder_subcommands c⟩, ?_, ?_, ?_⟩
  · have hwf2 : ∀ t ∈ [c.name, s.name], WfTok t := by
      intro t ht
      rcases List.mem_cons.mp ht with rfl | ht2
      · exact hwc
      · rcases List.mem_singleton.mp ht2 with rfl
        exact hws
    rw [findCommandE_joinSpace (registerCommand r c) (by simp) hwf2]
    show ∃ d, Except.ok (findFromTokens (registerCommand r c) c.name [s.name]) = .ok (some d)
    unfold findFromTokens
    rw [hfindhead]
    have hss : ((storeReorder c).subcommands.find?
        (fun e => e.name == s.name)).isSome = true := by
      rw [List.find?_isSome]
      exact ⟨s, by rw [storeReorder_subcommands]; exact hmem, by simp⟩
    obtain ⟨d, hd⟩ := Option.isSome_iff_exists.mp hss
    show ∃ d', Except.ok (findSub [s.name] (storeReorder c)) = .ok (some d')
    rw [show findSub [s.name] (storeReorder c) =
        (match (storeReorder c).subcommands.find? (fun e => e.name == s.name) with
         | none => none
         | some s' => findSub [] s') from rfl, hd]
    exact ⟨d, rfl⟩
  · have hsplit : splitWhitespace s.name = [s.name] := splitWhitespace_single hws
    rw [show findCommandE (registerCommand r c) s.name =
      (match splitWhitespace s.name with
       | [] => Except.error "panic: index out of bounds (parts[0] on an empty token list)"
       | p0 :: rest => Except.ok (findFromTokens (registerCommand r c) p0 rest)) from rfl,
      hsplit]
    have hfs : ((registerCommand r c).commands.find?
        (fun e => e.name == s.name)).isSome = true := by
      rw [List.find?_isSome]
      exact ⟨storeReorder s, hsmem, by simp [storeReorder_name]⟩
    obtain ⟨d, hd⟩ := Option.isSome_iff_exists.mp hfs
    show ∃ d', Except.ok (findFromTokens (registerCommand r c) s.name []) = .ok (some d')
    unfold findFromTokens
    rw [hd]
    exact ⟨d, rfl⟩
  · exact ⟨storeReorder s, hsmem, storeReorder_name s, storeReorder_args s⟩

/-- Counterexample to C5 as stated: `dupReg` arises by registering a command
named `a` with subcommand `b` into a registry that already holds a command
named `a`; the subcommand link exists, yet `find "a b"` returns absence. -/
theorem c5_counterexample :
    (Command.mk ("b".toList) [] [] none) ∈
      (Command.mk ("a".toList) [] [Command.mk ("b".toList) [] [] none] none).subcommands
    ∧ dupReg = registerCommand (registerCommand ⟨[]⟩ (.mk ("a".toList) [] [] none))
        (.mk ("a".toList) [] [.mk ("b".toList) [] [] none] none)
    ∧ findCommandE dupReg (joinSpace [("a".toList), ("b".toList)]) = .ok none :=
  ⟨by simp [Command.subcommands], rfl, rfl⟩

/-- Witness for C5 (amended): registering `give` (with subcommand `sword`)
into an empty registry. -/
theorem c5_subcommand_registration_witness :
    (∃ p, p ∈ (registerCommand ⟨[]⟩ c8Cmd).commands ∧ p.name = c8Cmd.name
       ∧ p.subcommands = c8Cmd.subcommands)
    ∧ (∃ d, findCommandE (registerCommand ⟨[]⟩ c8Cmd)
        (joinSpace [c8Cmd.name, swordCmd.name]) = .ok (some d))
    ∧ (∃ d, findCommandE (registerCommand ⟨[]⟩ c8Cmd) swordCmd.name = .ok (some d))
    ∧ (∃ e, e ∈ (registerCommand ⟨[]⟩ c8Cmd).commands ∧ e.name = swordCmd.name
       ∧ e.args = swordCmd.args.filter (fun a => !a.optional)
            ++ swordCmd.args.filter (fun a => a.optional)) :=
  c5_subcommand_registration ⟨[]⟩ c8Cmd swordCmd
    (show swordCmd ∈ [swordCmd] by simp) (by decide) (by decide) (by simp)

/-! ## Suggestion hint and argument index (C6) -/

theorem buildHint_ne_nil (arg : CommandArg) : buildHint arg ≠ [] := by
  rcases hr : arg.range with _ | mm <;> rcases ho : arg.optional <;>
    simp [buildHint, hr, ho]

/-- C6 (amended): for an input of two or more tokens whose command path
(all tokens except the last) resolves, `get_suggestions` selects the hinted
argument with the index `skip(min(len,1)).filter(no colon).count` — the
count of tokens after the FIRST token, the last token included, that do not
contain a colon — and the hint is non-empty exactly when that index is
within the resolved command's argument list. -/
theorem c6_hint_argument_index (r : CommandRegistry) (input : Str) (command : Command)
    (h2 : 2 ≤ (splitWhitespace (trimStr input)).length)
    (hf : findCommandE r (joinSpace ((splitWhitespace (trimStr input)).take
        ((splitWhitespace (trimStr input)).length - 1))) = .ok (some command)) :
    ∃ sugs hint, getSuggestionsE r input = .ok (sugs, hint)
      ∧ (hint ≠ [] ↔
          (((splitWhitespace (trimStr input)).drop
              (min (splitWhitespace (trimStr input)).length 1)).filter
            (fun p => !(p.contains ':'))).length < command.args.length) := by
  unfold getSuggestionsE
  cases hsp : splitWhitespace (trimStr input) with
  | nil => rw [hsp] at h2; simp at h2
  | cons p0 rest =>
    rw [hsp] at h2 hf
    dsimp only
    have hlen1 : ¬ ((p0 :: rest).length = 1) := by
      simp only [List.length_cons] at h2 ⊢
      omega
    rw [if_neg hlen1, hf]
    dsimp only
    by_cases hcol : ((p0 :: rest).getLastD []).contains ':' = true
    · rw [if_pos hcol]
      by_cases harg : (((p0 :: rest).drop (min (p0 :: rest).length 1)).filter
          (fun p => !(p.contains ':'))).length < command.args.length
      · rw [dif_pos harg]
        exact ⟨_, _, rfl, Iff.intro (fun _ => harg) (fun _ => buildHint_ne_nil _)⟩
      · rw [dif_neg harg]
        exact ⟨[], [], rfl,
          Iff.intro (fun hcon => absurd rfl hcon) (fun hlt => absurd hlt harg)⟩
    · rw [if_neg hcol]
      by_cases harg : (((p0 :: rest).drop (min (p0 :: rest).length 1)).filter
          (fun p => !(p.contains ':'))).length < command.args.length
      · rw [dif_pos harg]
        exact ⟨_, _, rfl, Iff.intro (fun _ => harg) (fun _ => buildHint_ne_nil _)⟩
      · rw [dif_neg harg]
        exact ⟨_, [], rfl,
          Iff.intro (fun hcon => absurd rfl hcon) (fun hlt => absurd hlt harg)⟩

/-- Counterexample to C6 as stated: for input `give sw` on a `give` command
with one argument and no subcommands, the command path `give` resolves and
the claim's index — tokens after the command path and before the last, with
no colon — is 0, within the one-element argument list, so the claim
predicts a non-empty hint; the code counts the last token too (index 1) and
returns an empty hint. -/
theorem c6_counterexample :
    findCommandE c6Reg ("give".toList) = .ok (some (Command.mk ("give".toList) [itemArg] [] none))
    ∧ (Command.mk ("give".toList) [itemArg] [] none).args.length = 1
    ∧ getSuggestionsE c6Reg ("give sw".toList) = .ok ([], []) :=
  ⟨rfl, rfl, rfl⟩

/-- Witness for C6 (amended) at input `give count:1` on `c7Reg`. -/
theorem c6_hint_argument_index_witness :
    ∃ sugs hint, getSuggestionsE c7Reg ("give count:1".toList) = .ok (sugs, hint)
      ∧ (hint ≠ [] ↔
          (((splitWhitespace (trimStr ("give count:1".toList))).drop
              (min (splitWhitespace (trimStr ("give count:1".toList))).length 1)).filter
            (fun p => !(p.contains ':'))).length <
            (Command.mk ("give".toList) [countArg] [] none).args.length) :=
  c6_hint_argument_index c7Reg ("give count:1".toList)
    (Command.mk ("give".toList) [countArg] [] none) (by decide) rfl

/-! ## Value suggestions in the named-argument branch (C7) -/

/-- C7, evaluated at the failing input `give count:1` (registry `c7Reg`,
whose `count` argument is `int`-typed): the claim's reading — the fixed pool
0, 1, 10, 100 filtered by prefix match against the partial value `1` —
yields three suggestions, but the code filters the pool against the whole
`name:value` token (`starts_with(last_part)`), which no colon-free pool
element can match, so the code returns no suggestions. -/
theorem c7_value_suggestions_filter_bug :
    (["0", "1", "10", "100"].map String.toList).filter
        (fun v => startsWith v ("1".toList)) =
      ["1".toList, "10".toList, "100".toList]
    ∧ getSuggestionsE c7Reg ("give count:1".toList) = .ok ([], buildHint countArg) :=
  ⟨by decide, rfl⟩

/-! ## Tab completion (C8) -/

/-- C8 (amended): on tab with a selected in-range suggestion — if the
trimmed buffer has no tokens the whole buffer becomes the suggestion; if it
has more than one token and the last token has no colon, the buffer becomes
the text ending strictly before the last space followed by the suggestion
(the last space itself is replaced too); otherwise the whole buffer becomes
the suggestion. The cursor moves to the end of the new buffer and the
suggestions and hint are recomputed from it. -/
theorem c8_tab_completion (s : PromptState) (idx : Nat)
    (hsel : s.selected_suggestion = some idx) (hidx : idx < s.suggestions.length) :
    ((splitWhitespace (trimStr s.input)).isEmpty = true →
      (handleKey s .tab).input = s.suggestions[idx])
    ∧ (1 < (splitWhitespace (trimStr s.input)).length →
        ((splitWhitespace (trimStr s.input)).getLastD []).contains ':' = false →
        (handleKey s .tab).input = s.input.take (rfindSpace s.input) ++ s.suggestions[idx])
    ∧ ((splitWhitespace (trimStr s.input)).length = 1 →
        (handleKey s .tab).input = s.suggestions[idx])
    ∧ (1 < (splitWhitespace (trimStr s.input)).length →
        ((splitWhitespace (trimStr s.input)).getLastD []).contains ':' = true →
        (handleKey s .tab).input = s.suggestions[idx])
    ∧ (handleKey s .tab).cursor_pos = (handleKey s .tab).input.length
    ∧ ((handleKey s .tab).suggestions, (handleKey s .tab).hint) =
        getSuggestionsTot s.registry ((handleKey s .tab).input) := by
  have hk : handleKey s .tab =
      updateSuggestions { s with
        input :=
          (if (splitWhitespace (trimStr s.input)).isEmpty then s.suggestions[idx]
           else if 1 < (splitWhitespace (trimStr s.input)).length then
             (if ((splitWhitespace (trimStr s.input)).getLastD []).contains ':' then
               s.suggestions[idx]
             else s.input.take (rfindSpace s.input) ++ s.suggestions[idx])
           else s.suggestions[idx]),
        cursor_pos :=
          (if (splitWhitespace (trimStr s.input)).isEmpty then s.suggestions[idx]
           else if 1 < (splitWhitespace (trimStr s.input)).length then
             (if ((splitWhitespace (trimStr s.input)).getLastD []).contains ':' then
               s.suggestions[idx]
             else s.input.take (rfindSpace s.input) ++ s.suggestions[idx])
           else s.suggestions[idx]).length } := by
    unfold handleKey
    rw [hsel]
    dsimp only
    rw [dif_pos hidx]
  rw [hk]
  refine ⟨?_, ?_, ?_, ?_, ?_, rfl⟩
  · intro hemp
    show (if (splitWhitespace (trimStr s.input)).isEmpty then s.suggestions[idx]
      else _) = s.suggestions[idx]
    rw [if_pos hemp]
  · intro hgt hcol
    have hne : ¬ ((splitWhitespace (trimStr s.input)).isEmpty = true) := by
      cases hc : splitWhitespace (trimStr s.input) with
      | nil => rw [hc] at hgt; simp at hgt
      | cons a b => simp [hc]
    show (if (splitWhitespace (trimStr s.input)).isEmpty then s.suggestions[idx]
      else _) = _
    rw [if_neg hne, if_pos hgt,
      if_neg (show ¬ (((splitWhitespace (trimStr s.input)).getLastD []).contains ':' = true) by
        rw [hcol]; exact Bool.false_ne_true)]
  · intro hone
    have hne : ¬ ((splitWhitespace (trimStr s.input)).isEmpty = true) := by
      cases hc : splitWhitespace (trimStr s.input) with
      | nil => rw [hc] at hone; simp at hone
      | cons a b => simp [hc]
    show (if (splitWhitespace (trimStr s.input)).isEmpty then s.suggestions[idx]
      else _) = _
    rw [if_neg hne, if_neg (by omega : ¬ 1 < (splitWhitespace (trimStr s.input)).length)]
  · intro hgt hcol
    have hne : ¬ ((splitWhitespace (trimStr s.input)).isEmpty = true) := by
      cases hc : splitWhitespace (trimStr s.input) with
      | nil => rw [hc] at hgt; simp at hgt
      | cons a b => simp [hc]
    show (if (splitWhitespace (trimStr s.input)).isEmpty then s.suggestions[idx]
      else _) = _
    rw [if_neg hne, if_pos hgt, if_pos hcol]
  · rfl

/-- Counterexample to C8 as stated: typing `give sw` (state `c8St`) selects
the suggestion `give sword`; the claim predicts that tab keeps `give ` (the
space included) giving `give give sword`, but the code keeps only `give`
(the slice ends before the last space) and produces `givegive sword`. -/
theorem c8_counterexample :
    c8St.suggestions = [("give sword".toList)]
    ∧ c8St.selected_suggestion = some 0
    ∧ (handleKey c8St .tab).input = ("givegive sword".toList)
    ∧ ("givegive sword".toList ≠ ("give give sword".toList)) :=
  ⟨by decide, by decide, by decide, by decide⟩

/-- Witness for C8 (amended): the multi-token completion case at `c8St`. -/
theorem c8_tab_completion_witness :
    (handleKey c8St .tab).input =
      c8St.input.take (rfindSpace c8St.input) ++ c8St.suggestions.get ⟨0, by decide⟩
    ∧ (handleKey c8St .tab).cursor_pos = (handleKey c8St .tab).input.length :=
  ⟨(c8_tab_completion c8St 0 (by decide) (by decide)).2.1 (by decide) (by decide),
   (c8_tab_completion c8St 0 (by decide) (by decide)).2.2.2.2.1⟩

/-! ## Bounded history (C9) -/

/-- C9: an Enter on a non-empty buffer that does not trim to `exit`, from a
history within its cap, appends the buffer at the newest end; when the push
would exceed the cap the oldest entry (index 0) is evicted; the result stays
within the cap and is a suffix of the pushed list (order preserved). -/
theorem c9_history_fifo (s : PromptState)
    (hcap : s.history.length ≤ s.max_history)
    (hne : s.input ≠ [])
    (hexit : trimStr s.input ≠ "exit".toList) :
    (handleKey s .enter).history.length ≤ s.max_history
    ∧ (s.history.length < s.max_history →
        (handleKey s .enter).history = s.history ++ [s.input])
    ∧ (s.history.length = s.max_history →
        (handleKey s .enter).history = (s.history ++ [s.input]).drop 1)
    ∧ List.IsSuffix (handleKey s .enter).history (s.history ++ [s.input]) := by
  have hk : (handleKey s .enter).history =
      (if (s.history ++ [s.input]).length > s.max_history
       then (s.history ++ [s.input]).drop 1 else s.history ++ [s.input]) := by
    unfold handleKey
    dsimp only
    rw [if_neg hexit, if_neg (show ¬ (s.input.isEmpty = true) by
      simpa [List.isEmpty_iff] using hne)]
    rfl
  rw [hk]
  have hplen : (s.history ++ [s.input]).length = s.history.length + 1 := by
    simp
  refine ⟨?_, ?_, ?_, ?_⟩
  · by_cases hc : (s.history ++ [s.input]).length > s.max_history
    · rw [if_pos hc]
      simp only [List.length_drop, hplen]
      omega
    · rw [if_neg hc]
      omega
  · intro hlt
    rw [if_neg (by omega)]
  · intro heq
    rw [if_pos (by omega)]
  · by_cases hc : (s.history ++ [s.input]).length > s.max_history
    · rw [if_pos hc]
      exact List.drop_suffix 1 _
    · rw [if_neg hc]

/-- A prompt state with a full one-slot history, about to submit `b`. -/
def c9St : PromptState :=
  { promptInit c8Reg with input := "b".toList, history := ["a".toList], max_history := 1 }

/-- Witness for C9: submitting over a full history evicts the oldest. -/
theorem c9_history_fifo_witness :
    (handleKey c9St .enter).history.length ≤ c9St.max_history
    ∧ (handleKey c9St .enter).history = (c9St.history ++ [c9St.input]).drop 1 :=
  ⟨(c9_history_fifo c9St (by decide) (by decide) (by decide)).1,
   (c9_history_fifo c9St (by decide) (by decide) (by decide)).2.2.1 (by decide)⟩
